import Mathlib

/-!
Verification of the fork-choice / vote-lockout core (Tower, lockout
aggregation, switch-fork threshold, commitment aggregation) against its
specification.  The Rust sources embedded here are
`core/src/consensus.rs` and `core/src/commitment.rs`; the vote-program
`VoteState`, the sdk `SlotHistory` and the signature/serialization
primitives are not part of the provided sources and are modelled from
the specification where noted.

Machine integers are modelled as `Nat` (no arithmetic in the embedded
code can overflow its 64/128-bit containers on the inputs considered);
the floating-point threshold comparisons `x / y > 2/3` and
`x / y > 0.38` are modelled by the exact integer comparisons
`2 * y < 3 * x` and `38 * y < 100 * x`.
-/

/-- `MAX_LOCKOUT_HISTORY = 32`. -/
def MAX_LOCKOUT_HISTORY : ℕ := 32

/-- `VOTE_THRESHOLD_DEPTH = 8`. -/
def VOTE_THRESHOLD_DEPTH : ℕ := 8

/-- A lockout record `(slot, confirmation_count)`. -/
structure Lockout where
  slot : ℕ
  confirmation_count : ℕ
deriving DecidableEq, Repr

/-- The lockout period `2^confirmation_count`. -/
def Lockout.lockout (l : Lockout) : ℕ := 2 ^ l.confirmation_count

/-- The expiration slot `slot + 2^confirmation_count`. -/
def Lockout.expiration_slot (l : Lockout) : ℕ := l.slot + l.lockout

/-- Modelled from the spec: the vote program's `VoteState` (not among the
provided sources): an ordered stack of lockouts (oldest at the head of
the list, the most recent vote at the end) and an optional root slot. -/
structure VoteState where
  votes : List Lockout := []
  root_slot : Option ℕ := none
deriving DecidableEq, Repr

/-- The slot of the top (most recent) vote on the stack. -/
def VoteState.last_voted_slot (vs : VoteState) : Option ℕ :=
  vs.votes.getLast?.map Lockout.slot

/-- `nth_recent_vote n`: the `n`-th vote from the top of the stack. -/
def VoteState.nth_recent_vote (vs : VoteState) (n : ℕ) : Option Lockout :=
  vs.votes.reverse.get? n

/-- Modelled from the spec: step 2 of `process_slot_vote` — every lockout
whose stack depth counted from the top exceeds its confirmation count has
the confirmation count incremented (capped at `MAX_LOCKOUT_HISTORY`). -/
def double_lockouts (votes : List Lockout) : List Lockout :=
  let n := votes.length
  votes.mapIdx fun i l =>
    if i + l.confirmation_count < n then
      { l with confirmation_count := min (l.confirmation_count + 1) MAX_LOCKOUT_HISTORY }
    else l

/-- Modelled from the spec: the vote program's
`VoteState::process_slot_vote_unchecked` (§4.1): pop every lockout whose
expiration is `≤ slot`, push `Lockout (slot, 1)`, pop the bottom lockout
into `root_slot` when the stack would exceed 32 entries, and increment
the confirmation count of every remaining lockout whose depth from the
top exceeds it. -/
def process_slot_vote_unchecked (vs : VoteState) (slot : ℕ) : VoteState :=
  let kept := vs.votes.filter fun l => slot < l.expiration_slot
  let pushed := kept ++ [{ slot := slot, confirmation_count := 1 }]
  if MAX_LOCKOUT_HISTORY < pushed.length then
    { votes := double_lockouts pushed.tail,
      root_slot := some (pushed.headD { slot := 0, confirmation_count := 1 }).slot }
  else
    { vs with votes := double_lockouts pushed }

/-- A vote transaction payload: a batch of slots, a bank hash and an
optional timestamp. -/
structure Vote where
  slots : List ℕ := []
  hash : ℕ := 0
  timestamp : Option ℤ := none
deriving DecidableEq, Repr

/-- The last (most recent) slot of the vote. -/
def Vote.last_voted_slot (v : Vote) : Option ℕ := v.slots.getLast?

/-- Modelled from the spec: the vote program's
`VoteState::process_vote_unchecked` applies the §4.1 slot-vote procedure
to each slot of the vote in order. -/
def process_vote_unchecked (vs : VoteState) (v : Vote) : VoteState :=
  v.slots.foldl process_slot_vote_unchecked vs

/-- A `BlockTimestamp {slot, unix_timestamp}`. -/
structure BlockTimestamp where
  slot : ℕ := 0
  timestamp : ℤ := 0
deriving DecidableEq, Repr

/-- The `Tower` struct of `consensus.rs`.  The `path`/`tmp_path` fields
carry no consensus content and are omitted; `stray_restored_slots` is the
serde-skipped recovery set.  The `f64` super-majority fraction
`threshold_size = 2/3` is carried as the exact numerator/denominator
pair. -/
structure Tower where
  node_pubkey : ℕ := 0
  threshold_depth : ℕ := VOTE_THRESHOLD_DEPTH
  threshold_size : ℕ × ℕ := (2, 3)
  lockouts : VoteState := {}
  last_vote : Vote := {}
  last_timestamp : BlockTimestamp := {}
  stray_restored_slots : List ℕ := []
deriving DecidableEq, Repr

/-- `Tower::last_voted_slot`, read from the cached `last_vote`. -/
def Tower.last_voted_slot (t : Tower) : Option ℕ := t.last_vote.last_voted_slot

/-- `Tower::root`. -/
def Tower.root (t : Tower) : Option ℕ := t.lockouts.root_slot

/-- `Tower::voted_slots`. -/
def Tower.voted_slots (t : Tower) : List ℕ := t.lockouts.votes.map Lockout.slot

/-- `Tower::is_stray_last_vote`. -/
def Tower.is_stray_last_vote (t : Tower) : Bool :=
  match t.last_voted_slot with
  | some s => t.stray_restored_slots.contains s
  | none => false

/-- `Tower::record_bank_vote`: apply the vote to the persistent
`VoteState`, cache it as `last_vote`, and report the new root exactly
when the root changed. -/
def Tower.record_bank_vote (t : Tower) (vote : Vote) : Option ℕ × Tower :=
  let root_before := t.lockouts.root_slot
  let lockouts2 := process_vote_unchecked t.lockouts vote
  let t2 := { t with lockouts := lockouts2, last_vote := vote }
  (if root_before ≠ lockouts2.root_slot then lockouts2.root_slot else none, t2)

lemma process_slot_vote_root_cases (vs : VoteState) (slot : ℕ) :
    (process_slot_vote_unchecked vs slot).root_slot = vs.root_slot ∨
      ∃ r, (process_slot_vote_unchecked vs slot).root_slot = some r := by
  unfold process_slot_vote_unchecked
  dsimp only
  split
  · exact Or.inr ⟨_, rfl⟩
  · exact Or.inl rfl

lemma foldl_process_slot_vote_root_cases (slots : List ℕ) (vs : VoteState) :
    (slots.foldl process_slot_vote_unchecked vs).root_slot = vs.root_slot ∨
      ∃ r, (slots.foldl process_slot_vote_unchecked vs).root_slot = some r := by
  induction slots generalizing vs with
  | nil => exact Or.inl rfl
  | cons s rest ih =>
    simp only [List.foldl_cons]
    rcases ih (process_slot_vote_unchecked vs s) with h | h
    · rw [h]; exact process_slot_vote_root_cases vs s
    · exact Or.inr h

lemma process_vote_root_cases (vs : VoteState) (v : Vote) :
    (process_vote_unchecked vs v).root_slot = vs.root_slot ∨
      ∃ r, (process_vote_unchecked vs v).root_slot = some r :=
  foldl_process_slot_vote_root_cases v.slots vs

/-- C9: after `Tower::record_bank_vote(vote)`, the tower's `last_vote`
equals the recorded vote (so `last_voted_slot()` equals the vote's last
voted slot), and the call returns `Some(new_root)` iff the lockouts'
root changed during processing, with the returned value being the new
root. -/
theorem record_bank_vote_spec (t : Tower) (v : Vote) :
    (t.record_bank_vote v).2.last_vote = v ∧
    (t.record_bank_vote v).2.last_voted_slot = v.last_voted_slot ∧
    ((t.record_bank_vote v).1.isSome ↔
      t.lockouts.root_slot ≠ (t.record_bank_vote v).2.lockouts.root_slot) ∧
    (∀ r, (t.record_bank_vote v).1 = some r →
      (t.record_bank_vote v).2.lockouts.root_slot = some r) := by
  refine ⟨rfl, rfl, ?_, ?_⟩
  · unfold Tower.record_bank_vote
    dsimp only
    by_cases h : t.lockouts.root_slot ≠ (process_vote_unchecked t.lockouts v).root_slot
    · simp only [if_pos h]
      constructor
      · intro _; exact h
      · intro _
        rcases process_vote_root_cases t.lockouts v with hc | ⟨r, hr⟩
        · exact absurd hc.symm h
        · rw [hr]; exact rfl
    · simp only [if_neg h]
      simp only [Option.isSome_none, Bool.false_eq_true, false_iff]
      exact fun hne => h hne
  · intro r hr
    unfold Tower.record_bank_vote at hr ⊢
    dsimp only at hr ⊢
    by_cases h : t.lockouts.root_slot ≠ (process_vote_unchecked t.lockouts v).root_slot
    · rw [if_pos h] at hr; exact hr
    · rw [if_neg h] at hr; exact absurd hr (by simp)

/-- Closed instance of `record_bank_vote_spec` at a concrete tower and
vote (the inner implications are discharged on a concrete run). -/
theorem record_bank_vote_spec_witness :
    (({ } : Tower).record_bank_vote { slots := [3], hash := 7 }).2.last_vote
        = { slots := [3], hash := 7 } ∧
    (({ } : Tower).record_bank_vote { slots := [3], hash := 7 }).2.last_voted_slot
        = Vote.last_voted_slot { slots := [3], hash := 7 } ∧
    ((({ } : Tower).record_bank_vote { slots := [3], hash := 7 }).1.isSome ↔
      ({ } : Tower).lockouts.root_slot
        ≠ (({ } : Tower).record_bank_vote { slots := [3], hash := 7 }).2.lockouts.root_slot) ∧
    (∀ r, (({ } : Tower).record_bank_vote { slots := [3], hash := 7 }).1 = some r →
      (({ } : Tower).record_bank_vote { slots := [3], hash := 7 }).2.lockouts.root_slot
        = some r) :=
  record_bank_vote_spec { } { slots := [3], hash := 7 }

/-! ## Vote lockout aggregation (`Tower::collect_vote_lockouts`) -/

/-- `voted_stakes: map<Slot, Stake>`, modelled as a lookup function
(`none` = key absent). -/
def VotedStakes : Type := ℕ → Option ℕ

/-- `map<Slot, set<Slot>>` of ancestors, modelled as a lookup function. -/
def AncestorsMap : Type := ℕ → Option (List ℕ)

/-- `voted_stakes.entry(slot).or_default()`: ensure the key is present,
initialising it to `0`. -/
def stakes_entry_or_default (m : VotedStakes) (s : ℕ) : VotedStakes :=
  fun x => if x = s then some ((m s).getD 0) else m x

/-- `*voted_stakes.entry(slot).or_default() += stake`. -/
def stakes_add (stake : ℕ) (m : VotedStakes) (s : ℕ) : VotedStakes :=
  fun x => if x = s then some ((m s).getD 0 + stake) else m x

/-- `Tower::populate_ancestor_voted_stakes`: create (zero-initialised)
entries for the vote's slot and all its ancestors; a slot without an
ancestors entry is ignored. -/
def populate_ancestor_voted_stakes (m : VotedStakes) (vote : Lockout)
    (ancestors : AncestorsMap) : VotedStakes :=
  match ancestors vote.slot with
  | none => m
  | some l => (vote.slot :: l).foldl stakes_entry_or_default m

/-- `Tower::update_ancestor_voted_stakes`: add `voted_stake` to the voted
slot and to each of its ancestors; a slot without an ancestors entry is
ignored. -/
def update_ancestor_voted_stakes (m : VotedStakes) (voted_slot voted_stake : ℕ)
    (ancestors : AncestorsMap) : VotedStakes :=
  match ancestors voted_slot with
  | none => m
  | some l => (voted_slot :: l).foldl (stakes_add voted_stake) m

/-- `ComputedBankState`, with `lockout_intervals` keyed by expiration
slot. -/
structure ComputedBankState where
  voted_stakes : VotedStakes := fun _ => none
  total_stake : ℕ := 0
  bank_weight : ℕ := 0
  lockout_intervals : ℕ → List (ℕ × ℕ) := fun _ => []
  pubkey_votes : List (ℕ × ℕ) := []

/-- The `bank_weight`/`voted_stakes` contribution for the pre-simulation
root when the simulated vote changed the root (`consensus.rs:264-274`):
the old root is accounted as a lockout of confirmation count 32. -/
def populate_start_root (start_root sim_root : Option ℕ) (m : VotedStakes)
    (ancestors : AncestorsMap) : VotedStakes :=
  if start_root ≠ sim_root then
    match start_root with
    | some root =>
      populate_ancestor_voted_stakes m
        { slot := root, confirmation_count := MAX_LOCKOUT_HISTORY } ancestors
    | none => m
  else m

/-- The weight contributed by the pre-simulation root on a root change. -/
def start_root_weight (start_root sim_root : Option ℕ) (voted_stake : ℕ) : ℕ :=
  if start_root ≠ sim_root then
    match start_root with
    | some _ => 2 ^ MAX_LOCKOUT_HISTORY * voted_stake
    | none => 0
  else 0

/-- The `voted_stakes` contribution for the post-simulation root
(`consensus.rs:275-282`). -/
def populate_sim_root (sim_root : Option ℕ) (m : VotedStakes)
    (ancestors : AncestorsMap) : VotedStakes :=
  match sim_root with
  | some root =>
    populate_ancestor_voted_stakes m
      { slot := root, confirmation_count := MAX_LOCKOUT_HISTORY } ancestors
  | none => m

/-- The weight contributed by the post-simulation root. -/
def sim_root_weight (sim_root : Option ℕ) (voted_stake : ℕ) : ℕ :=
  match sim_root with
  | some _ => 2 ^ MAX_LOCKOUT_HISTORY * voted_stake
  | none => 0

/-- The roll-up of the account's stake to the last unsimulated vote and
its ancestors (`consensus.rs:297-305`). -/
def update_last_unsimulated (sim : VoteState) (m : VotedStakes) (voted_stake : ℕ)
    (ancestors : AncestorsMap) : VotedStakes :=
  match sim.nth_recent_vote 1 with
  | some v => update_ancestor_voted_stakes m v.slot voted_stake ancestors
  | none => m

/-- One iteration of the `collect_vote_lockouts` loop for a vote account
`(pubkey, (stake, account))`; the account's deserialised `VoteState` is
modelled as `Option VoteState` (`none` = `VoteState::from` failed, the
account is skipped). -/
def collect_account (bank_slot : ℕ) (ancestors : AncestorsMap)
    (st : ComputedBankState) (entry : ℕ × ℕ × Option VoteState) : ComputedBankState :=
  let key := entry.1
  let voted_stake := entry.2.1
  if voted_stake = 0 then st else
  match entry.2.2 with
  | none => st
  | some vote_state0 =>
    let intervals := vote_state0.votes.foldl
      (fun f v => fun e => if e = v.expiration_slot then f e ++ [(v.slot, key)] else f e)
      st.lockout_intervals
    let pubkey_votes := match vote_state0.last_voted_slot with
      | some lvs => st.pubkey_votes ++ [(key, lvs)]
      | none => st.pubkey_votes
    let sim := process_slot_vote_unchecked vote_state0 bank_slot
    let m1 := sim.votes.foldl (fun m v => populate_ancestor_voted_stakes m v ancestors)
      st.voted_stakes
    let m2 := populate_start_root vote_state0.root_slot sim.root_slot m1 ancestors
    let m3 := populate_sim_root sim.root_slot m2 ancestors
    let m4 := update_last_unsimulated sim m3 voted_stake ancestors
    { voted_stakes := m4,
      total_stake := st.total_stake + voted_stake,
      bank_weight := st.bank_weight + (sim.votes.map fun v => v.lockout * voted_stake).sum
        + start_root_weight vote_state0.root_slot sim.root_slot voted_stake
        + sim_root_weight sim.root_slot voted_stake,
      lockout_intervals := intervals,
      pubkey_votes := pubkey_votes }

/-- `Tower::collect_vote_lockouts` over an iterator of vote accounts
(the `node_pubkey` argument only feeds telemetry and is omitted). -/
def collect_vote_lockouts (bank_slot : ℕ) (vote_accounts : List (ℕ × ℕ × Option VoteState))
    (ancestors : AncestorsMap) : ComputedBankState :=
  vote_accounts.foldl (collect_account bank_slot ancestors) {}

lemma stakes_entry_or_default_getD (m : VotedStakes) (s x : ℕ) :
    ((stakes_entry_or_default m s) x).getD 0 = (m x).getD 0 := by
  unfold stakes_entry_or_default
  by_cases h : x = s
  · subst h; simp
  · simp [h]

lemma foldl_entry_or_default_getD (xs : List ℕ) (m : VotedStakes) (x : ℕ) :
    ((xs.foldl stakes_entry_or_default m) x).getD 0 = (m x).getD 0 := by
  induction xs generalizing m with
  | nil => rfl
  | cons a rest ih =>
    simp only [List.foldl_cons]
    rw [ih, stakes_entry_or_default_getD]

lemma populate_ancestor_voted_stakes_getD (m : VotedStakes) (v : Lockout)
    (ancestors : AncestorsMap) (x : ℕ) :
    ((populate_ancestor_voted_stakes m v ancestors) x).getD 0 = (m x).getD 0 := by
  unfold populate_ancestor_voted_stakes
  match ancestors v.slot with
  | none => rfl
  | some l => exact foldl_entry_or_default_getD _ m x

lemma foldl_populate_getD (votes : List Lockout) (m : VotedStakes)
    (ancestors : AncestorsMap) (x : ℕ) :
    ((votes.foldl (fun m v => populate_ancestor_voted_stakes m v ancestors) m) x).getD 0
      = (m x).getD 0 := by
  induction votes generalizing m with
  | nil => rfl
  | cons v rest ih =>
    simp only [List.foldl_cons]
    rw [ih, populate_ancestor_voted_stakes_getD]

lemma populate_start_root_getD (start_root sim_root : Option ℕ) (m : VotedStakes)
    (ancestors : AncestorsMap) (x : ℕ) :
    ((populate_start_root start_root sim_root m ancestors) x).getD 0 = (m x).getD 0 := by
  unfold populate_start_root
  split
  · match start_root with
    | some root => exact populate_ancestor_voted_stakes_getD m _ ancestors x
    | none => rfl
  · rfl

lemma populate_sim_root_getD (sim_root : Option ℕ) (m : VotedStakes)
    (ancestors : AncestorsMap) (x : ℕ) :
    ((populate_sim_root sim_root m ancestors) x).getD 0 = (m x).getD 0 := by
  unfold populate_sim_root
  match sim_root with
  | some root => exact populate_ancestor_voted_stakes_getD m _ ancestors x
  | none => rfl

lemma foldl_stakes_add_getD (stake : ℕ) (xs : List ℕ) (m : VotedStakes) (x : ℕ) :
    ((xs.foldl (stakes_add stake) m) x).getD 0 = (m x).getD 0 + xs.count x * stake := by
  induction xs generalizing m with
  | nil => simp
  | cons a rest ih =>
    simp only [List.foldl_cons]
    rw [ih]
    unfold stakes_add
    by_cases h : x = a
    · subst h
      simp [List.count_cons, Nat.add_mul, Nat.add_comm, Nat.add_assoc, Nat.add_left_comm]
    · have : (a == x) = false := by
        simp [beq_iff_eq]; exact fun he => h he.symm
      simp [h, List.count_cons, this]

lemma update_ancestor_voted_stakes_getD (m : VotedStakes) (voted_slot stake : ℕ)
    (ancestors : AncestorsMap) (x : ℕ) :
    ((update_ancestor_voted_stakes m voted_slot stake ancestors) x).getD 0
      = (m x).getD 0 +
        (match ancestors voted_slot with
         | none => 0
         | some l => (voted_slot :: l).count x * stake) := by
  unfold update_ancestor_voted_stakes
  match ancestors voted_slot with
  | none => simp
  | some l => exact foldl_stakes_add_getD stake (voted_slot :: l) m x

/-- C1 (amended): processing one vote account changes `voted_stakes`
values only through the second-from-top element of the post-simulation
stack (the last unsimulated vote): for every slot `x`, the recorded stake
of `x` grows by the account's stake times the multiplicity of `x` in
`{v.slot} ∪ ancestors(v.slot)` where `v = nth_recent_vote 1` (and by
nothing when that vote is absent or has no ancestors entry).  All other
lockouts on the stack, and the roots, only obtain zero-initialised
entries; in particular the simulated top vote contributes no stake of its
own. -/
theorem collect_account_voted_stakes_spec (bank_slot : ℕ) (ancestors : AncestorsMap)
    (st : ComputedBankState) (key voted_stake : ℕ) (acct : Option VoteState) (x : ℕ) :
    (((collect_account bank_slot ancestors st (key, voted_stake, acct)).voted_stakes x).getD 0)
      = ((st.voted_stakes x).getD 0) +
        (match acct with
         | none => 0
         | some vs0 =>
           if voted_stake = 0 then 0 else
           match (process_slot_vote_unchecked vs0 bank_slot).nth_recent_vote 1 with
           | none => 0
           | some v =>
             match ancestors v.slot with
             | none => 0
             | some l => (v.slot :: l).count x * voted_stake) := by
  match acct with
  | none =>
    unfold collect_account
    by_cases h : voted_stake = 0 <;> simp [h]
  | some vs0 =>
    by_cases h : voted_stake = 0
    · unfold collect_account
      simp [h]
    · unfold collect_account
      simp only [if_neg h]
      unfold update_last_unsimulated
      match hnth : (process_slot_vote_unchecked vs0 bank_slot).nth_recent_vote 1 with
      | none =>
        simp only [populate_sim_root_getD, populate_start_root_getD, foldl_populate_getD,
          Nat.add_zero]
      | some v =>
        rw [update_ancestor_voted_stakes_getD]
        simp only [populate_sim_root_getD, populate_start_root_getD, foldl_populate_getD]

/-- The vote state of the C1 counterexample: lockouts `(2,3)` and `(4,1)`. -/
def vs_c1 : VoteState := { votes := [⟨2, 3⟩, ⟨4, 1⟩], root_slot := none }

/-- The ancestors map of the C1 counterexample: `5 ↦ {4}`, `4 ↦ {}`,
`2 ↦ {}` (slot 2 is an older slot that is not an ancestor of 4 in this
map). -/
def anc_c1 : AncestorsMap :=
  fun s => if s = 5 then some [4] else if s = 4 then some [] else if s = 2 then some [] else none

/-- The computed bank state of the C1 counterexample: one vote account of
stake 100, at bank slot 5. -/
def state_c1 : ComputedBankState := collect_vote_lockouts 5 [(7, 100, some vs_c1)] anc_c1

/-- C1 counterexample: on this call the post-simulation stack is
`[(2,3), (4,2), (5,1)]`; the claim demands that every lockout except the
last — in particular the one at slot 2 — have the voter's stake of 100
rolled into `voted_stakes`, but slot 2 receives no stake at all (its
entry is merely zero-initialised). -/
theorem collect_account_claim_c1_false :
    ¬ (∀ v ∈ (process_slot_vote_unchecked vs_c1 5).votes.dropLast,
        100 ≤ (state_c1.voted_stakes v.slot).getD 0) := by
  decide

/-! ## Switch-fork threshold (`Tower::check_switch_threshold`) -/

/-- `SwitchForkDecision`. -/
inductive SwitchForkDecision where
  | SwitchProof (hash : ℕ)
  | NoSwitch
  | FailedSwitchThreshold
deriving DecidableEq, Repr

/-- The per-fork statistics consulted by the switch check: the `computed`
flag and the bank's `lockout_intervals` — a map keyed by lockout
expiration slot (kept sorted ascending, as in the `BTreeMap`), each entry
holding `(interval_start_slot, voter_pubkey)` pairs. -/
structure ForkStats where
  computed : Bool := false
  lockout_intervals : List (ℕ × List (ℕ × ℕ)) := []
deriving DecidableEq, Repr

/-- `ProgressMap`, restricted to the fork stats the switch check reads. -/
def ProgressMap : Type := ℕ → Option ForkStats

/-- `epoch_vote_accounts`: voter pubkey to epoch stake (`none` = absent,
read with `unwrap_or(0)`). -/
def EpochVoteAccounts : Type := ℕ → Option ℕ

/-- `get_fork_stats(s).map(|stats| stats.computed).unwrap_or(false)`. -/
def is_computed (progress : ProgressMap) (s : ℕ) : Bool :=
  ((progress s).map ForkStats.computed).getD false

/-- The body of the innermost loop of `check_switch_threshold`
(`consensus.rs:558-581`): fold one `(interval_start, pubkey)` pair into
the `(locked_out_stake, locked_out_vote_accounts)` accumulator. -/
def locked_out_accum (last_vote_ancestors : List ℕ) (root : ℕ)
    (epoch_vote_accounts : EpochVoteAccounts) (acc : ℕ × List ℕ) (p : ℕ × ℕ) : ℕ × List ℕ :=
  if p.2 ∈ acc.2 then acc
  else if p.1 ∉ last_vote_ancestors ∧ root < p.1 then
    (acc.1 + (epoch_vote_accounts p.2).getD 0, p.2 :: acc.2)
  else acc

/-- The contribution of one kept candidate bank: fold every pair of every
`lockout_intervals` entry in `range([last_voted_slot, ∞))`. -/
def bank_locked_out (last_vote_ancestors : List ℕ) (root last_voted_slot : ℕ)
    (epoch_vote_accounts : EpochVoteAccounts) (fs : ForkStats) (acc : ℕ × List ℕ) :
    ℕ × List ℕ :=
  (fs.lockout_intervals.filter fun q => last_voted_slot ≤ q.1).foldl
    (fun a q => q.2.foldl (locked_out_accum last_vote_ancestors root epoch_vote_accounts) a)
    acc

/-- One candidate bank of the `descendants` iteration
(`consensus.rs:511-583`): either skipped (the keep filters), or folded
into the accumulator; `none` models a panic (a missing `ancestors` or
`progress` entry, or the `assert!` that the candidate is not an ancestor
of the last vote). -/
def switch_candidate_step (last_vote_ancestors : List ℕ) (root last_voted_slot : ℕ)
    (ancestors : AncestorsMap) (progress : ProgressMap)
    (epoch_vote_accounts : EpochVoteAccounts) (acc : ℕ × List ℕ) (bank : ℕ × List ℕ) :
    Option (ℕ × List ℕ) :=
  if ¬ is_computed progress bank.1 ∨ bank.2.any (is_computed progress)
      ∨ bank.1 = last_voted_slot then
    some acc
  else match ancestors bank.1 with
  | none => none
  | some cand_ancestors =>
    if last_voted_slot ∈ cand_ancestors ∨ bank.1 ≤ root then some acc
    else if bank.1 ∈ last_vote_ancestors then none
    else match progress bank.1 with
      | none => none
      | some fs =>
        some (bank_locked_out last_vote_ancestors root last_voted_slot
          epoch_vote_accounts fs acc)

/-- The full `locked_out_stake` accumulation over all candidate banks. -/
def compute_locked_out_stake (last_vote_ancestors : List ℕ) (root last_voted_slot : ℕ)
    (ancestors : AncestorsMap) (progress : ProgressMap)
    (epoch_vote_accounts : EpochVoteAccounts) (descendants : List (ℕ × List ℕ)) :
    Option (ℕ × List ℕ) :=
  descendants.foldlM
    (switch_candidate_step last_vote_ancestors root last_voted_slot ancestors progress
      epoch_vote_accounts)
    (0, [])

/-- `Tower::check_switch_threshold`.  `none` models a panic (a failed
`unwrap`/`expect` or `assert!`); the `0.38` comparison
`locked/total > SWITCH_FORK_THRESHOLD` is the exact
`38 * total < 100 * locked`. -/
def check_switch_threshold (t : Tower) (switch_slot : ℕ) (ancestors : AncestorsMap)
    (descendants : List (ℕ × List ℕ)) (progress : ProgressMap) (total_stake : ℕ)
    (epoch_vote_accounts : EpochVoteAccounts) : Option SwitchForkDecision :=
  match t.last_voted_slot with
  | none => some .NoSwitch
  | some last_voted_slot =>
    let lva : Option (List ℕ) :=
      if t.is_stray_last_vote then some t.stray_restored_slots
      else ancestors last_voted_slot
    match lva with
    | none => none
    | some last_vote_ancestors =>
      match ancestors switch_slot with
      | none => none
      | some switch_slot_ancestors =>
        if switch_slot = last_voted_slot ∨ last_voted_slot ∈ switch_slot_ancestors then
          some .NoSwitch
        else if switch_slot ∈ last_vote_ancestors then none
        else
          let root := t.lockouts.root_slot.getD 0
          match compute_locked_out_stake last_vote_ancestors root last_voted_slot
              ancestors progress epoch_vote_accounts descendants with
          | none => none
          | some lk =>
            some (if 38 * total_stake < 100 * lk.1 then .SwitchProof 0
                  else .FailedSwitchThreshold)

/-- C2: `check_switch_threshold` returns `NoSwitch` when the tower has no
last vote, and when `switch_slot` equals the last voted slot or the last
voted slot is an ancestor of `switch_slot`; otherwise (the switch slot
being on a different fork, with the code's lookups and assertion
succeeding) it returns `SwitchProof` exactly when
`locked_out_stake / total_stake > 0.38` and `FailedSwitchThreshold`
otherwise. -/
theorem check_switch_threshold_spec (t : Tower) (switch_slot : ℕ) (ancestors : AncestorsMap)
    (descendants : List (ℕ × List ℕ)) (progress : ProgressMap) (total_stake : ℕ)
    (epoch_vote_accounts : EpochVoteAccounts) :
    (t.last_voted_slot = none →
      check_switch_threshold t switch_slot ancestors descendants progress total_stake
        epoch_vote_accounts = some .NoSwitch) ∧
    (∀ lvs last_vote_ancestors switch_slot_ancestors,
      t.last_voted_slot = some lvs →
      (if t.is_stray_last_vote then some t.stray_restored_slots else ancestors lvs)
          = some last_vote_ancestors →
      ancestors switch_slot = some switch_slot_ancestors →
      ((switch_slot = lvs ∨ lvs ∈ switch_slot_ancestors) →
        check_switch_threshold t switch_slot ancestors descendants progress total_stake
          epoch_vote_accounts = some .NoSwitch) ∧
      (¬ (switch_slot = lvs ∨ lvs ∈ switch_slot_ancestors) →
        switch_slot ∉ last_vote_ancestors →
        ∀ locked accounts,
          compute_locked_out_stake last_vote_ancestors (t.lockouts.root_slot.getD 0) lvs
              ancestors progress epoch_vote_accounts descendants = some (locked, accounts) →
          check_switch_threshold t switch_slot ancestors descendants progress total_stake
            epoch_vote_accounts
            = some (if 38 * total_stake < 100 * locked then .SwitchProof 0
                    else .FailedSwitchThreshold))) := by
  constructor
  · intro hnone
    unfold check_switch_threshold
    rw [hnone]
  · intro lvs last_vote_ancestors switch_slot_ancestors hsome hlva hssa
    constructor
    · intro hcond
      unfold check_switch_threshold
      rw [hsome]
      simp only [hlva, hssa, if_pos hcond]
    · intro hcond hassert locked accounts hcomp
      unfold check_switch_threshold
      rw [hsome]
      simp only [hlva, hssa, if_neg hcond, if_neg hassert, hcomp]

/-- The tower of the concrete switch scenario: last vote at slot 47. -/
def t_b : Tower := { last_vote := { slots := [47] }, lockouts := { votes := [⟨47, 1⟩] } }

/-- Ancestors for the switch scenario. -/
def anc_b : AncestorsMap :=
  fun s => if s = 110 then some [0] else if s = 47 then some [0]
    else if s = 48 then some [0] else none

/-- Candidate banks for the switch scenario: one frozen tip at slot 48. -/
def desc_b : List (ℕ × List ℕ) := [(48, [])]

/-- Progress map for the switch scenario: bank 48 is computed and holds
two lockout intervals expiring at slot 100 that contain slot 47. -/
def prog_b : ProgressMap :=
  fun s => if s = 48 then
    some { computed := true, lockout_intervals := [(100, [(48, 2), (90, 3)])] } else none

/-- Epoch stakes for the switch scenario: voters 2 and 3 hold 10000 each. -/
def epoch_b : EpochVoteAccounts :=
  fun p => if p = 2 then some 10000 else if p = 3 then some 10000 else none

/-- Closed instance of `check_switch_threshold_spec`: with 20000 of 40000
stake locked out against slot 47 (fraction 0.5 > 0.38), switching to
slot 110 yields a switch proof. -/
theorem check_switch_threshold_spec_witness :
    check_switch_threshold t_b 110 anc_b desc_b prog_b 40000 epoch_b
      = some (SwitchForkDecision.SwitchProof 0) := by
  have h := ((check_switch_threshold_spec t_b 110 anc_b desc_b prog_b 40000 epoch_b).2
    47 [0] [0] (by decide) (by decide) (by decide)).2 (by decide) (by decide)
    20000 [3, 2] (by decide)
  exact h.trans (by decide)

/-- The sum of the epoch stakes of a list of voter pubkeys. -/
def stake_sum (epoch_vote_accounts : EpochVoteAccounts) (l : List ℕ) : ℕ :=
  (l.map fun pk => (epoch_vote_accounts pk).getD 0).sum

lemma locked_out_accum_fold (last_vote_ancestors : List ℕ) (root : ℕ)
    (epoch_vote_accounts : EpochVoteAccounts) (L : List (ℕ × ℕ)) (acc : ℕ × List ℕ)
    (hnd : acc.2.Nodup) (hsum : acc.1 = stake_sum epoch_vote_accounts acc.2) :
    (L.foldl (locked_out_accum last_vote_ancestors root epoch_vote_accounts) acc).2.Nodup ∧
    (L.foldl (locked_out_accum last_vote_ancestors root epoch_vote_accounts) acc).1
      = stake_sum epoch_vote_accounts
          (L.foldl (locked_out_accum last_vote_ancestors root epoch_vote_accounts) acc).2 ∧
    ∀ pk ∈ (L.foldl (locked_out_accum last_vote_ancestors root epoch_vote_accounts) acc).2,
      pk ∈ acc.2 ∨ ∃ start, (start, pk) ∈ L ∧ start ∉ last_vote_ancestors ∧ root < start := by
  induction L generalizing acc with
  | nil => exact ⟨hnd, hsum, fun pk hpk => Or.inl hpk⟩
  | cons p rest ih =>
    simp only [List.foldl_cons]
    unfold locked_out_accum
    by_cases hmem : p.2 ∈ acc.2
    · rw [if_pos hmem]
      obtain ⟨h1, h2, h3⟩ := ih acc hnd hsum
      refine ⟨h1, h2, fun pk hpk => ?_⟩
      rcases h3 pk hpk with h | ⟨start, hs, hnl, hrt⟩
      · exact Or.inl h
      · exact Or.inr ⟨start, List.mem_cons_of_mem p hs, hnl, hrt⟩
    · rw [if_neg hmem]
      by_cases hcond : p.1 ∉ last_vote_ancestors ∧ root < p.1
      · rw [if_pos hcond]
        have hnd' : (p.2 :: acc.2).Nodup := List.nodup_cons.mpr ⟨hmem, hnd⟩
        have hsum' : acc.1 + (epoch_vote_accounts p.2).getD 0
            = stake_sum epoch_vote_accounts (p.2 :: acc.2) := by
          unfold stake_sum at hsum ⊢
          simp [hsum, Nat.add_comm]
        obtain ⟨h1, h2, h3⟩ := ih (acc.1 + (epoch_vote_accounts p.2).getD 0, p.2 :: acc.2)
          hnd' hsum'
        refine ⟨h1, h2, fun pk hpk => ?_⟩
        rcases h3 pk hpk with h | ⟨start, hs, hnl, hrt⟩
        · rcases List.mem_cons.mp h with he | h
          · subst he
            exact Or.inr ⟨p.1, List.mem_cons_self _ _, hcond.1, hcond.2⟩
          · exact Or.inl h
        · exact Or.inr ⟨start, List.mem_cons_of_mem p hs, hnl, hrt⟩
      · rw [if_neg hcond]
        obtain ⟨h1, h2, h3⟩ := ih acc hnd hsum
        refine ⟨h1, h2, fun pk hpk => ?_⟩
        rcases h3 pk hpk with h | ⟨start, hs, hnl, hrt⟩
        · exact Or.inl h
        · exact Or.inr ⟨start, List.mem_cons_of_mem p hs, hnl, hrt⟩

lemma intervals_fold (last_vote_ancestors : List ℕ) (root : ℕ)
    (epoch_vote_accounts : EpochVoteAccounts) (M : List (ℕ × List (ℕ × ℕ)))
    (acc : ℕ × List ℕ) (hnd : acc.2.Nodup)
    (hsum : acc.1 = stake_sum epoch_vote_accounts acc.2) :
    let r := M.foldl
      (fun a q => q.2.foldl (locked_out_accum last_vote_ancestors root epoch_vote_accounts) a)
      acc
    r.2.Nodup ∧ r.1 = stake_sum epoch_vote_accounts r.2 ∧
    ∀ pk ∈ r.2, pk ∈ acc.2 ∨ ∃ q ∈ M, ∃ start, (start, pk) ∈ q.2 ∧
      start ∉ last_vote_ancestors ∧ root < start := by
  induction M generalizing acc with
  | nil => exact ⟨hnd, hsum, fun pk hpk => Or.inl hpk⟩
  | cons q rest ih =>
    simp only [List.foldl_cons]
    obtain ⟨h1, h2, h3⟩ := locked_out_accum_fold last_vote_ancestors root epoch_vote_accounts
      q.2 acc hnd hsum
    obtain ⟨g1, g2, g3⟩ := ih _ h1 h2
    refine ⟨g1, g2, fun pk hpk => ?_⟩
    rcases g3 pk hpk with h | ⟨q', hq', start, hs, hnl, hrt⟩
    · rcases h3 pk h with h | ⟨start, hs, hnl, hrt⟩
      · exact Or.inl h
      · exact Or.inr ⟨q, List.mem_cons_self _ _, start, hs, hnl, hrt⟩
    · exact Or.inr ⟨q', List.mem_cons_of_mem q hq', start, hs, hnl, hrt⟩

lemma bank_locked_out_spec (last_vote_ancestors : List ℕ) (root last_voted_slot : ℕ)
    (epoch_vote_accounts : EpochVoteAccounts) (fs : ForkStats) (acc : ℕ × List ℕ)
    (hnd : acc.2.Nodup) (hsum : acc.1 = stake_sum epoch_vote_accounts acc.2) :
    (bank_locked_out last_vote_ancestors root last_voted_slot epoch_vote_accounts fs acc).2.Nodup ∧
    (bank_locked_out last_vote_ancestors root last_voted_slot epoch_vote_accounts fs acc).1
      = stake_sum epoch_vote_accounts
          (bank_locked_out last_vote_ancestors root last_voted_slot epoch_vote_accounts fs acc).2 ∧
    ∀ pk ∈ (bank_locked_out last_vote_ancestors root last_voted_slot epoch_vote_accounts
        fs acc).2,
      pk ∈ acc.2 ∨ ∃ e pairs, (e, pairs) ∈ fs.lockout_intervals ∧ last_voted_slot ≤ e ∧
        ∃ start, (start, pk) ∈ pairs ∧ start ∉ last_vote_ancestors ∧ root < start := by
  unfold bank_locked_out
  obtain ⟨h1, h2, h3⟩ := intervals_fold last_vote_ancestors root epoch_vote_accounts
    (fs.lockout_intervals.filter fun q => last_voted_slot ≤ q.1) acc hnd hsum
  refine ⟨h1, h2, fun pk hpk => ?_⟩
  rcases h3 pk hpk with h | ⟨q, hq, start, hs, hnl, hrt⟩
  · exact Or.inl h
  · obtain ⟨hqmem, hqle⟩ := List.mem_filter.mp hq
    exact Or.inr ⟨q.1, q.2, by simpa using hqmem, by simpa using hqle, start, hs, hnl, hrt⟩

lemma switch_candidate_step_spec (last_vote_ancestors : List ℕ) (root last_voted_slot : ℕ)
    (ancestors : AncestorsMap) (progress : ProgressMap)
    (epoch_vote_accounts : EpochVoteAccounts) (acc res : ℕ × List ℕ) (bank : ℕ × List ℕ)
    (h : switch_candidate_step last_vote_ancestors root last_voted_slot ancestors progress
        epoch_vote_accounts acc bank = some res) :
    res = acc ∨ ∃ fs, progress bank.1 = some fs ∧
      res = bank_locked_out last_vote_ancestors root last_voted_slot epoch_vote_accounts
        fs acc := by
  unfold switch_candidate_step at h
  split at h
  · exact Or.inl (Option.some.inj h).symm
  · rcases hanc : ancestors bank.1 with _ | cand_ancestors
    · simp only [hanc] at h
      exact absurd h (by simp)
    · simp only [hanc] at h
      by_cases hc1 : last_voted_slot ∈ cand_ancestors ∨ bank.1 ≤ root
      · rw [if_pos hc1] at h
        exact Or.inl (Option.some.inj h).symm
      · rw [if_neg hc1] at h
        by_cases hc2 : bank.1 ∈ last_vote_ancestors
        · rw [if_pos hc2] at h
          exact absurd h (by simp)
        · rw [if_neg hc2] at h
          rcases hprog : progress bank.1 with _ | fs
          · simp only [hprog] at h
            exact absurd h (by simp)
          · simp only [hprog, Option.some.injEq] at h
            exact Or.inr ⟨fs, rfl, h.symm⟩

lemma compute_locked_out_go (last_vote_ancestors : List ℕ) (root last_voted_slot : ℕ)
    (ancestors : AncestorsMap) (progress : ProgressMap)
    (epoch_vote_accounts : EpochVoteAccounts) (ds : List (ℕ × List ℕ))
    (acc res : ℕ × List ℕ) (hnd : acc.2.Nodup)
    (hsum : acc.1 = stake_sum epoch_vote_accounts acc.2)
    (h : ds.foldlM
        (switch_candidate_step last_vote_ancestors root last_voted_slot ancestors progress
          epoch_vote_accounts) acc = some res) :
    res.2.Nodup ∧ res.1 = stake_sum epoch_vote_accounts res.2 ∧
    ∀ pk ∈ res.2, pk ∈ acc.2 ∨ ∃ bank ∈ ds, ∃ fs, progress bank.1 = some fs ∧
      ∃ e pairs, (e, pairs) ∈ fs.lockout_intervals ∧ last_voted_slot ≤ e ∧
        ∃ start, (start, pk) ∈ pairs ∧ start ∉ last_vote_ancestors ∧ root < start := by
  induction ds generalizing acc with
  | nil =>
    simp only [List.foldlM_nil, Option.pure_def, Option.some.injEq] at h
    subst h
    exact ⟨hnd, hsum, fun pk hpk => Or.inl hpk⟩
  | cons b rest ih =>
    rw [List.foldlM_cons] at h
    rcases Option.bind_eq_some.mp h with ⟨a, hstep, hrest⟩
    rcases switch_candidate_step_spec last_vote_ancestors root last_voted_slot ancestors
        progress epoch_vote_accounts acc a b hstep with he | ⟨fs, hfs, hb⟩
    · subst he
      obtain ⟨h1, h2, h3⟩ := ih a hnd hsum hrest
      refine ⟨h1, h2, fun pk hpk => ?_⟩
      rcases h3 pk hpk with h | ⟨bank, hbm, rest'⟩
      · exact Or.inl h
      · exact Or.inr ⟨bank, List.mem_cons_of_mem b hbm, rest'⟩
    · obtain ⟨g1, g2, g3⟩ := bank_locked_out_spec last_vote_ancestors root last_voted_slot
        epoch_vote_accounts fs acc hnd hsum
      rw [← hb] at g1 g2 g3
      obtain ⟨h1, h2, h3⟩ := ih a g1 g2 hrest
      refine ⟨h1, h2, fun pk hpk => ?_⟩
      rcases h3 pk hpk with h | ⟨bank, hbm, rest'⟩
      · rcases g3 pk h with h | ⟨e, pairs, hmem, hle, start, hs, hnl, hrt⟩
        · exact Or.inl h
        · exact Or.inr ⟨b, List.mem_cons_self _ _, fs, hfs, e, pairs, hmem, hle,
            start, hs, hnl, hrt⟩
      · exact Or.inr ⟨bank, List.mem_cons_of_mem b hbm, rest'⟩

/-- C3: in the `locked_out_stake` accumulation of
`check_switch_threshold`, each voter pubkey's epoch stake is counted at
most once over all kept banks (the final account set is duplicate-free
and the stake is exactly the sum over it), and a pubkey enters only
through a `(interval_start, pubkey)` pair of an interval entry whose
expiration key is `≥ last_voted_slot`, with `interval_start > root` and
`interval_start` not an ancestor of the last voted slot. -/
theorem compute_locked_out_stake_spec (last_vote_ancestors : List ℕ)
    (root last_voted_slot : ℕ) (ancestors : AncestorsMap) (progress : ProgressMap)
    (epoch_vote_accounts : EpochVoteAccounts) (descendants : List (ℕ × List ℕ))
    (locked : ℕ) (accounts : List ℕ)
    (h : compute_locked_out_stake last_vote_ancestors root last_voted_slot ancestors
        progress epoch_vote_accounts descendants = some (locked, accounts)) :
    accounts.Nodup ∧
    locked = stake_sum epoch_vote_accounts accounts ∧
    ∀ pk ∈ accounts, ∃ bank ∈ descendants, ∃ fs, progress bank.1 = some fs ∧
      ∃ e pairs, (e, pairs) ∈ fs.lockout_intervals ∧ last_voted_slot ≤ e ∧
        ∃ start, (start, pk) ∈ pairs ∧ start ∉ last_vote_ancestors ∧ root < start := by
  obtain ⟨h1, h2, h3⟩ := compute_locked_out_go last_vote_ancestors root last_voted_slot
    ancestors progress epoch_vote_accounts descendants (0, []) (locked, accounts)
    List.nodup_nil rfl h
  refine ⟨h1, h2, fun pk hpk => ?_⟩
  rcases h3 pk hpk with h | hp
  · exact absurd h (List.not_mem_nil pk)
  · exact hp

/-- Closed instance of `compute_locked_out_stake_spec` at the concrete
switch scenario. -/
theorem compute_locked_out_stake_spec_witness :
    [3, 2].Nodup ∧ 20000 = stake_sum epoch_b [3, 2] ∧
    ∀ pk ∈ [3, 2], ∃ bank ∈ desc_b, ∃ fs, prog_b bank.1 = some fs ∧
      ∃ e pairs, (e, pairs) ∈ fs.lockout_intervals ∧ 47 ≤ e ∧
        ∃ start, (start, pk) ∈ pairs ∧ start ∉ [0] ∧ 0 < start :=
  compute_locked_out_stake_spec [0] 0 47 anc_b prog_b epoch_b desc_b 20000 [3, 2]
    (by decide)

/-! ## Post-replay adjustment (`Tower::adjust_lockouts_after_replay`) -/

/-- The four classifications of a slot against a `SlotHistory`. -/
inductive Check where
  | Future
  | TooOld
  | Found
  | NotFound
deriving DecidableEq, Repr

/-- Modelled from the spec: the sdk `SlotHistory` bit-set (not among the
provided sources), supporting `check(slot) ∈ {Future, Found, NotFound,
TooOld}` and `oldest()`: a window of recorded slots with a newest and an
oldest bound. -/
structure SlotHistory where
  slots : List ℕ
  oldest : ℕ
deriving DecidableEq, Repr

/-- The newest slot recorded in the history. -/
def SlotHistory.newest (h : SlotHistory) : ℕ := h.slots.foldr max 0

/-- Modelled from the spec: `check(slot)` — `Future` beyond the newest
recorded slot, `TooOld` before the oldest, otherwise `Found`/`NotFound`
by membership. -/
def SlotHistory.check (h : SlotHistory) (s : ℕ) : Check :=
  if h.newest < s then .Future
  else if s < h.oldest then .TooOld
  else if s ∈ h.slots then .Found
  else .NotFound

/-- The typed tower errors (`TowerError`). -/
inductive TowerError where
  | io_error
  | serialize_error
  | invalid_signature
  | wrong_tower
  | too_old (last_voted oldest : ℕ)
  | inconsistent_with_slot_history (msg : String)
deriving DecidableEq, Repr

/-- The retain-flag loop of `adjust_lockouts_after_replay`
(`consensus.rs:772-802`), over the votes in newest-to-oldest order, with
the three running flags; produces the retain flags in the same order or
the inconsistency error the code reports. -/
def adjust_flags (sh : SlotHistory) :
    List Lockout → Bool → Bool → Bool → Except TowerError (List Bool)
  | [], _, _, _ => .ok []
  | v :: rest, found, still_in_future, past_outside_history =>
    let c := sh.check v.slot
    if found ∧ c = .NotFound then
      .error (.inconsistent_with_slot_history "diverged ancestor?")
    else
      let found2 := if c = .Found then true else found
      if ¬ still_in_future ∧ c = .Future then
        .error (.inconsistent_with_slot_history "time warmped?")
      else
        let still2 := if c ≠ .Future then false else still_in_future
        if past_outside_history ∧ c ≠ .TooOld then
          .error (.inconsistent_with_slot_history "not too old once after got too old?")
        else
          let past2 := if c = .TooOld then true else past_outside_history
          (adjust_flags sh rest found2 still2 past2).map fun fl => (!found2) :: fl

/-- `Vec::retain` driven by a parallel flag list. -/
def zip_retain : List Lockout → List Bool → List Lockout
  | [], _ => []
  | _ :: _, [] => []
  | v :: vs, b :: bs => if b then v :: zip_retain vs bs else zip_retain vs bs

/-- `Tower::adjust_lockouts_after_replay` (the entry asserts, which are
panics, are not modelled): bail out on empty votes, fail `TooOld` when
the last voted slot predates the history, compute the retain flags over
the reversed vote list, retain, and either anchor the surviving stray
votes at the replayed root or reset the tower. -/
def adjust_lockouts_after_replay (t : Tower) (replayed_root_slot : ℕ)
    (slot_history : SlotHistory) : Except TowerError Tower :=
  if t.lockouts.votes.isEmpty then .ok t
  else if slot_history.check ((t.last_voted_slot).getD 0) = .TooOld then
    .error (.too_old ((t.last_voted_slot).getD 0) slot_history.oldest)
  else
    match adjust_flags slot_history t.lockouts.votes.reverse false true false with
    | .error e => .error e
    | .ok flags_rev =>
      if (zip_retain t.lockouts.votes flags_rev.reverse).isEmpty then
        .ok { t with
              lockouts := { t.lockouts with votes := [], root_slot := none },
              last_vote := {} }
      else
        .ok { t with
              lockouts := { t.lockouts with
                            votes := zip_retain t.lockouts.votes flags_rev.reverse,
                            root_slot := some replayed_root_slot },
              stray_restored_slots :=
                (zip_retain t.lockouts.votes flags_rev.reverse).map Lockout.slot }

/-- The pure shape of the retain flags: a vote's flag is cleared as soon
as a `Found` vote has been seen at its own or a newer position. -/
def flags_pure (sh : SlotHistory) : List Lockout → Bool → List Bool
  | [], _ => []
  | v :: rest, found =>
    let found2 := if sh.check v.slot = .Found then true else found
    (!found2) :: flags_pure sh rest found2

lemma adjust_flags_ok (sh : SlotHistory) (l : List Lockout)
    (found still_in_future past_outside_history : Bool) (fl : List Bool)
    (h : adjust_flags sh l found still_in_future past_outside_history = .ok fl) :
    fl = flags_pure sh l found := by
  induction l generalizing found still_in_future past_outside_history fl with
  | nil =>
    simp only [adjust_flags] at h
    cases h
    rfl
  | cons v rest ih =>
    simp only [adjust_flags] at h
    split at h
    · exact absurd h (by simp)
    · split at h
      · exact absurd h (by simp)
      · split at h
        · exact absurd h (by simp)
        · rcases hrec : adjust_flags sh rest (if sh.check v.slot = .Found then true else found)
              (if sh.check v.slot ≠ .Future then false else still_in_future)
              (if sh.check v.slot = .TooOld then true else past_outside_history) with e | fl2
          · rw [hrec] at h
            exact absurd h (by simp [Except.map])
          · rw [hrec] at h
            simp only [Except.map, Except.ok.injEq] at h
            rw [← h, flags_pure]
            exact congrArg _ (ih _ _ _ _ hrec)

lemma flags_pure_length (sh : SlotHistory) (l : List Lockout) (found : Bool) :
    (flags_pure sh l found).length = l.length := by
  induction l generalizing found with
  | nil => rfl
  | cons v rest ih => simp [flags_pure, ih]

lemma zip_retain_append (a1 a2 : List Lockout) (b1 b2 : List Bool)
    (hlen : a1.length = b1.length) :
    zip_retain (a1 ++ a2) (b1 ++ b2) = zip_retain a1 b1 ++ zip_retain a2 b2 := by
  induction a1 generalizing b1 with
  | nil =>
    cases b1 with
    | nil => rfl
    | cons b bs => exact absurd hlen (by simp)
  | cons v vs ih =>
    cases b1 with
    | nil => exact absurd hlen (by simp)
    | cons b bs =>
      simp only [List.cons_append, zip_retain, List.append_eq]
      rw [ih bs (by simpa using hlen)]
      by_cases hb : b = true
      · simp [hb]
      · simp [hb]

lemma zip_retain_reverse (a : List Lockout) (b : List Bool) (hlen : a.length = b.length) :
    zip_retain a.reverse b.reverse = (zip_retain a b).reverse := by
  induction a generalizing b with
  | nil =>
    cases b with
    | nil => rfl
    | cons x xs => exact absurd hlen (by simp)
  | cons v vs ih =>
    cases b with
    | nil => exact absurd hlen (by simp)
    | cons x xs =>
      simp only [List.reverse_cons]
      rw [zip_retain_append vs.reverse [v] xs.reverse [x] (by simpa using hlen)]
      rw [ih xs (by simpa using hlen)]
      simp only [zip_retain]
      by_cases hx : x = true
      · simp [hx]
      · simp [hx, zip_retain]

lemma zip_retain_flags_pure (sh : SlotHistory) (rv : List Lockout) (found : Bool) :
    zip_retain rv (flags_pure sh rv found)
      = if found then [] else rv.takeWhile fun v => decide (sh.check v.slot ≠ .Found) := by
  induction rv generalizing found with
  | nil => simp [zip_retain]
  | cons v rest ih =>
    simp only [flags_pure]
    by_cases hf : sh.check v.slot = .Found
    · simp only [if_pos hf, zip_retain]
      rw [ih true]
      by_cases hfound : found = true
      · simp [hfound]
      · simp only [Bool.not_eq_true] at hfound
        simp [hfound, List.takeWhile_cons, hf]
    · simp only [if_neg hf, zip_retain]
      rw [ih found]
      by_cases hfound : found = true
      · simp [hfound]
      · simp only [Bool.not_eq_true] at hfound
        simp [hfound, List.takeWhile_cons, hf]

/-- The votes that the adjustment retains: the maximal newest suffix of
the vote stack containing no `Found`-classified vote. -/
def retained_votes (sh : SlotHistory) (votes : List Lockout) : List Lockout :=
  ((votes.reverse).takeWhile fun v => decide (sh.check v.slot ≠ .Found)).reverse

lemma adjust_retained (sh : SlotHistory) (votes : List Lockout) (fl : List Bool)
    (h : adjust_flags sh votes.reverse false true false = .ok fl) :
    zip_retain votes fl.reverse = retained_votes sh votes := by
  have hfl := adjust_flags_ok sh votes.reverse false true false fl h
  subst hfl
  have hlen : votes.reverse.length = (flags_pure sh votes.reverse false).length :=
    (flags_pure_length sh votes.reverse false).symm
  calc zip_retain votes (flags_pure sh votes.reverse false).reverse
      = zip_retain votes.reverse.reverse (flags_pure sh votes.reverse false).reverse := by
        rw [List.reverse_reverse]
    _ = (zip_retain votes.reverse (flags_pure sh votes.reverse false)).reverse :=
        zip_retain_reverse votes.reverse (flags_pure sh votes.reverse false) hlen
    _ = retained_votes sh votes := by
        rw [zip_retain_flags_pure sh votes.reverse false]
        simp [retained_votes]

/-- C4 (amended): a successful `adjust_lockouts_after_replay` on a
non-empty tower retains exactly the votes newer than the newest
`Found`-classified vote — i.e. the maximal newest suffix with no `Found`
vote, which under a consistent classification is the votes classified
`Future` or `NotFound`, not the `NotFound` ones alone.  If any vote
remains, the root becomes the replayed root and the retained slots are
recorded as stray; otherwise root and `last_vote` are reset. -/
theorem adjust_lockouts_after_replay_spec (t : Tower) (replayed_root_slot : ℕ)
    (sh : SlotHistory) (t2 : Tower)
    (hne : t.lockouts.votes ≠ [])
    (h : adjust_lockouts_after_replay t replayed_root_slot sh = .ok t2) :
    t2.lockouts.votes = retained_votes sh t.lockouts.votes ∧
    (retained_votes sh t.lockouts.votes ≠ [] →
      t2.lockouts.root_slot = some replayed_root_slot ∧
      t2.stray_restored_slots = (retained_votes sh t.lockouts.votes).map Lockout.slot ∧
      t2.last_vote = t.last_vote) ∧
    (retained_votes sh t.lockouts.votes = [] →
      t2.lockouts.root_slot = none ∧ t2.last_vote = { }) := by
  unfold adjust_lockouts_after_replay at h
  rw [if_neg (by simpa using hne)] at h
  by_cases htoo : sh.check (t.last_voted_slot.getD 0) = Check.TooOld
  · rw [if_pos htoo] at h
    exact absurd h (by simp)
  · rw [if_neg htoo] at h
    rcases hfl : adjust_flags sh t.lockouts.votes.reverse false true false with e | fl
    · simp only [hfl] at h
      exact absurd h (by simp)
    · simp only [hfl] at h
      have hret := adjust_retained sh t.lockouts.votes fl hfl
      rw [hret] at h
      by_cases hemp : retained_votes sh t.lockouts.votes = []
      · rw [if_pos (by simpa using hemp)] at h
        cases h
        exact ⟨by simpa using hemp.symm, fun hc => absurd hemp hc, fun _ => ⟨rfl, rfl⟩⟩
      · rw [if_neg (by simpa using hemp)] at h
        cases h
        exact ⟨rfl, fun _ => ⟨rfl, rfl, rfl⟩, fun hc => absurd hc hemp⟩

deriving instance DecidableEq for Except

/-- The tower of spec scenario F: votes `[0,1,2,3,4]`. -/
def tower_f : Tower :=
  { lockouts := { votes := [⟨0, 5⟩, ⟨1, 4⟩, ⟨2, 3⟩, ⟨3, 2⟩, ⟨4, 1⟩], root_slot := none },
    last_vote := { slots := [4] } }

/-- The slot history of spec scenario F: `{0, 1, 2}`. -/
def sh_f : SlotHistory := { slots := [0, 1, 2], oldest := 0 }

/-- C4 counterexample: on scenario F (tower votes `[0,1,2,3,4]`, history
`{0,1,2}`, replayed root 2) the adjustment retains the votes at slots
`[3,4]`, which are classified `Future` (newer than the newest history
entry), whereas no vote at all is classified `NotFound` — so the
adjustment does not retain exactly the `NotFound`-classified votes. -/
theorem adjust_lockouts_claim_c4_false :
    ¬ ((adjust_lockouts_after_replay tower_f 2 sh_f).map Tower.voted_slots
        = .ok ((tower_f.lockouts.votes.filter
            (fun v => sh_f.check v.slot = Check.NotFound)).map Lockout.slot)) := by
  decide

/-- The adjusted tower of scenario F. -/
def tower_f2 : Tower :=
  { lockouts := { votes := [⟨3, 2⟩, ⟨4, 1⟩], root_slot := some 2 },
    last_vote := { slots := [4] },
    stray_restored_slots := [3, 4] }

/-- Closed instance of `adjust_lockouts_after_replay_spec` at scenario F:
slots 3 and 4 survive, the root becomes 2 and the stray set is `{3,4}`. -/
theorem adjust_lockouts_after_replay_spec_witness :
    tower_f2.lockouts.votes = retained_votes sh_f tower_f.lockouts.votes ∧
    (retained_votes sh_f tower_f.lockouts.votes ≠ [] →
      tower_f2.lockouts.root_slot = some 2 ∧
      tower_f2.stray_restored_slots
        = (retained_votes sh_f tower_f.lockouts.votes).map Lockout.slot ∧
      tower_f2.last_vote = tower_f.last_vote) ∧
    (retained_votes sh_f tower_f.lockouts.votes = [] →
      tower_f2.lockouts.root_slot = none ∧ tower_f2.last_vote = { }) :=
  adjust_lockouts_after_replay_spec tower_f 2 sh_f tower_f2 (by decide) rfl

/-! ## Persistence (`Tower::save` / `Tower::restore`) -/

/-- The persisted (serde-serialised) fields of `Tower`:
`{node_pubkey, threshold_depth, threshold_size, lockouts (vote_state),
last_vote, last_timestamp}`; `path`, `tmp_path` and
`stray_restored_slots` are `#[serde(skip)]`. -/
structure PersistedTower where
  node_pubkey : ℕ
  threshold_depth : ℕ
  threshold_size : ℕ × ℕ
  lockouts : VoteState
  last_vote : Vote
  last_timestamp : BlockTimestamp
deriving DecidableEq, Repr

/-- Project a tower onto its persisted fields. -/
def Tower.persisted (t : Tower) : PersistedTower :=
  { node_pubkey := t.node_pubkey,
    threshold_depth := t.threshold_depth,
    threshold_size := t.threshold_size,
    lockouts := t.lockouts,
    last_vote := t.last_vote,
    last_timestamp := t.last_timestamp }

/-- Rebuild a tower from its persisted fields (the skipped fields take
their defaults, as after deserialisation). -/
def tower_of_persisted (p : PersistedTower) : Tower :=
  { node_pubkey := p.node_pubkey,
    threshold_depth := p.threshold_depth,
    threshold_size := p.threshold_size,
    lockouts := p.lockouts,
    last_vote := p.last_vote,
    last_timestamp := p.last_timestamp }

/-- Modelled from the spec: a signing keypair (not among the provided
sources), identified by its public key. -/
structure Keypair where
  pubkey : ℕ
deriving DecidableEq, Repr

/-- Modelled from the spec: an ed25519 signature over the serialised
tower bytes; the deterministic serialisation is modelled by the
`PersistedTower` record itself, and a signature records the signer and
the signed data. -/
structure SignatureD where
  signer : ℕ
  message : PersistedTower
deriving DecidableEq, Repr

/-- Modelled from the spec: `keypair.sign_message(data)`. -/
def sign_message (kp : Keypair) (data : PersistedTower) : SignatureD :=
  { signer := kp.pubkey, message := data }

/-- Modelled from the spec: `signature.verify(pubkey, data)` succeeds
exactly when the signature was produced over `data` by the key of
`pubkey`. -/
def SignatureD.verify (sig : SignatureD) (pubkey : ℕ) (data : PersistedTower) : Bool :=
  decide (sig.signer = pubkey ∧ sig.message = data)

/-- `SavedTower { signature, data }`. -/
structure SavedTower where
  signature : SignatureD
  data : PersistedTower
deriving DecidableEq, Repr

/-- `SavedTower::new`: serialise the tower and sign the bytes. -/
def SavedTower.new (t : Tower) (keypair : Keypair) : SavedTower :=
  { signature := sign_message keypair t.persisted, data := t.persisted }

/-- `SavedTower::verify`. -/
def SavedTower.verify_sig (st : SavedTower) (pubkey : ℕ) : Bool :=
  st.signature.verify pubkey st.data

/-- `SavedTower::deserialize` (the modelled serialisation cannot fail). -/
def SavedTower.deserialize_tower (st : SavedTower) : Except TowerError Tower :=
  .ok (tower_of_persisted st.data)

/-- The file-system operations `Tower::save` can perform. -/
inductive FsOp where
  | create_tmp (content : SavedTower)
  | rename_tmp_to_final
deriving DecidableEq, Repr

/-- The outcome of `Tower::save`: the returned result, the file-system
operations performed, and the final file content. -/
structure SaveOutcome where
  result : Except TowerError Unit
  fs_ops : List FsOp
  file : Option SavedTower
deriving DecidableEq, Repr

/-- `Tower::save`: refuse with `WrongTower` — before touching the file
system — when the keypair is not the tower's own; otherwise write the
signed serialisation to the temporary file and atomically rename it. -/
def Tower.save (t : Tower) (node_keypair : Keypair) : SaveOutcome :=
  if t.node_pubkey ≠ node_keypair.pubkey then
    { result := .error .wrong_tower, fs_ops := [], file := none }
  else
    { result := .ok (),
      fs_ops := [.create_tmp (SavedTower.new t node_keypair), .rename_tmp_to_final],
      file := some (SavedTower.new t node_keypair) }

/-- `Tower::restore`: read the stored file (`none` = missing file, an IO
error), verify the signature against the expected node pubkey, then
deserialise and check the inner `node_pubkey`. -/
def Tower.restore (stored : Option SavedTower) (node_pubkey : ℕ) : Except TowerError Tower :=
  match stored with
  | none => .error .io_error
  | some saved_tower =>
    if ¬ saved_tower.verify_sig node_pubkey then .error .invalid_signature
    else match saved_tower.deserialize_tower with
      | .error e => .error e
      | .ok tower =>
        if tower.node_pubkey ≠ node_pubkey then .error .wrong_tower
        else .ok tower

/-- C5: `Tower::restore` fails with `InvalidSignature` whenever the
stored signature does not verify against the expected node pubkey over
the stored data, fails with `WrongTower` whenever the signature verifies
but the deserialised tower's `node_pubkey` differs, and yields a tower
only when both checks pass. -/
theorem restore_spec (st : SavedTower) (pk : ℕ) :
    (st.verify_sig pk = false → Tower.restore (some st) pk = .error .invalid_signature) ∧
    (st.verify_sig pk = true → (tower_of_persisted st.data).node_pubkey ≠ pk →
      Tower.restore (some st) pk = .error .wrong_tower) ∧
    (∀ t, Tower.restore (some st) pk = .ok t →
      st.verify_sig pk = true ∧ t.node_pubkey = pk ∧ t = tower_of_persisted st.data) := by
  refine ⟨?_, ?_, ?_⟩
  · intro hv
    unfold Tower.restore
    simp [hv]
  · intro hv hpk
    unfold Tower.restore
    simp [hv, SavedTower.deserialize_tower, hpk]
  · intro t h
    simp only [Tower.restore] at h
    by_cases hv : st.verify_sig pk = true
    · rw [if_neg (by simp [hv])] at h
      simp only [SavedTower.deserialize_tower] at h
      by_cases hpk : (tower_of_persisted st.data).node_pubkey ≠ pk
      · rw [if_pos hpk] at h
        exact absurd h (by simp)
      · rw [if_neg hpk] at h
        simp only [Except.ok.injEq] at h
        push_neg at hpk
        exact ⟨hv, h ▸ hpk, h.symm⟩
    · rw [if_pos hv] at h
      exact absurd h (by simp)

/-- A concrete saved tower for the restore witness. -/
def st_c5 : SavedTower := SavedTower.new { node_pubkey := 7 } { pubkey := 7 }

/-- Closed instance of `restore_spec`: restoring the well-signed saved
tower of node 7 yields back its persisted content. -/
theorem restore_spec_witness :
    st_c5.verify_sig 7 = true ∧
    (tower_of_persisted st_c5.data).node_pubkey = 7 ∧
    tower_of_persisted st_c5.data = tower_of_persisted st_c5.data :=
  (restore_spec st_c5 7).2.2 (tower_of_persisted st_c5.data) rfl

/-- C6: saving a tower with its own keypair and restoring it under the
same pubkey succeeds and is the identity on the persisted fields
(`node_pubkey`, `threshold_depth`, `threshold_size`, `lockouts`,
`last_vote`, `last_timestamp`). -/
theorem save_restore_roundtrip (t : Tower) (kp : Keypair)
    (h : kp.pubkey = t.node_pubkey) :
    (t.save kp).result = .ok () ∧
    (t.save kp).file = some (SavedTower.new t kp) ∧
    Tower.restore ((t.save kp).file) t.node_pubkey = .ok (tower_of_persisted t.persisted) ∧
    (tower_of_persisted t.persisted).persisted = t.persisted := by
  have hne : ¬ t.node_pubkey ≠ kp.pubkey := by simp [h]
  refine ⟨?_, ?_, ?_, rfl⟩
  · unfold Tower.save
    rw [if_neg hne]
  · unfold Tower.save
    rw [if_neg hne]
  · unfold Tower.save
    rw [if_neg hne]
    simp [Tower.restore, SavedTower.deserialize_tower, SavedTower.new,
      SavedTower.verify_sig, SignatureD.verify, sign_message,
      tower_of_persisted, Tower.persisted, h]

/-- Closed instance of `save_restore_roundtrip` at a concrete tower. -/
theorem save_restore_roundtrip_witness :
    (({ node_pubkey := 7 } : Tower).save { pubkey := 7 }).result = .ok () ∧
    (({ node_pubkey := 7 } : Tower).save { pubkey := 7 }).file
      = some (SavedTower.new { node_pubkey := 7 } { pubkey := 7 }) ∧
    Tower.restore ((({ node_pubkey := 7 } : Tower).save { pubkey := 7 }).file) 7
      = .ok (tower_of_persisted ({ node_pubkey := 7 } : Tower).persisted) ∧
    (tower_of_persisted ({ node_pubkey := 7 } : Tower).persisted).persisted
      = ({ node_pubkey := 7 } : Tower).persisted :=
  save_restore_roundtrip { node_pubkey := 7 } { pubkey := 7 } rfl

/-- C10: with a keypair whose pubkey differs from the tower's
`node_pubkey`, `Tower::save` returns the `WrongTower` error and performs
no file-system operation at all — no temporary-file creation, no rename,
no file content. -/
theorem save_wrong_keypair (t : Tower) (kp : Keypair) (h : kp.pubkey ≠ t.node_pubkey) :
    (t.save kp).result = .error .wrong_tower ∧
    (t.save kp).fs_ops = [] ∧
    (t.save kp).file = none := by
  have hne : t.node_pubkey ≠ kp.pubkey := fun he => h he.symm
  unfold Tower.save
  rw [if_pos hne]
  exact ⟨rfl, rfl, rfl⟩

/-- Closed instance of `save_wrong_keypair` at a concrete mismatched
pair. -/
theorem save_wrong_keypair_witness :
    (({ node_pubkey := 7 } : Tower).save { pubkey := 8 }).result
      = .error .wrong_tower ∧
    (({ node_pubkey := 7 } : Tower).save { pubkey := 8 }).fs_ops = [] ∧
    (({ node_pubkey := 7 } : Tower).save { pubkey := 8 }).file = none :=
  save_wrong_keypair { node_pubkey := 7 } { pubkey := 8 } (by decide)

/-! ## Commitment aggregation (`commitment.rs`) -/

/-- A `BlockCommitment`: the 33-entry stake array, modelled as an
index-to-stake function (indices `0..=32`; index 32 is the rooted
stake). -/
structure BlockCommitment where
  commitment : ℕ → ℕ
def BlockCommitment.default : BlockCommitment := ⟨fun _ => 0⟩

/-- `BlockCommitment::increase_confirmation_stake` (asserted
`0 < confirmation_count ≤ 32` in the code). -/
def BlockCommitment.increase_confirmation_stake (bc : BlockCommitment)
    (confirmation_count stake : ℕ) : BlockCommitment :=
  ⟨fun i => if i = confirmation_count - 1 then bc.commitment i + stake else bc.commitment i⟩

/-- `BlockCommitment::increase_rooted_stake`: entry 32. -/
def BlockCommitment.increase_rooted_stake (bc : BlockCommitment) (stake : ℕ) :
    BlockCommitment :=
  ⟨fun i => if i = MAX_LOCKOUT_HISTORY then bc.commitment i + stake else bc.commitment i⟩

/-- `BlockCommitment::get_rooted_stake`. -/
def BlockCommitment.get_rooted_stake (bc : BlockCommitment) : ℕ :=
  bc.commitment MAX_LOCKOUT_HISTORY

/-- `HashMap<Slot, BlockCommitment>` as a lookup function. -/
def CommitmentMap : Type := ℕ → Option BlockCommitment

/-- `commitment.entry(slot).or_insert_with(BlockCommitment::default)`
followed by a mutation `f`. -/
def commit_upd (m : CommitmentMap) (s : ℕ) (f : BlockCommitment → BlockCommitment) :
    CommitmentMap :=
  fun x => if x = s then some (f ((m s).getD BlockCommitment.default)) else m x

/-- The rooted-stake of the commitment entry of a slot (absent = all
zeroes). -/
def rooted_of (m : CommitmentMap) (s : ℕ) : ℕ :=
  ((m s).getD BlockCommitment.default).get_rooted_stake

/-- The rooted prefix loop of `aggregate_commitment_for_vote_account`
(`commitment.rs:302-312`): bump the rooted stake of each ancestor `≤
root`, stopping (`break`) at the first ancestor `> root`; returns the new
map and `some` remaining suffix on break (`none` when the loop ran out,
leaving `ancestors_index` at its initial value 0). -/
def rooted_prefix_scan (lamports root : ℕ) :
    List ℕ → CommitmentMap → CommitmentMap × Option (List ℕ)
  | [], m => (m, none)
  | a :: rest, m =>
    if a ≤ root then
      rooted_prefix_scan lamports root rest
        (commit_upd m a (fun bc => bc.increase_rooted_stake lamports))
    else (m, some (a :: rest))

/-- The `rooted_stake` `BTreeMap` mutation (`commitment.rs:313-321`):
walk the entries in ascending key order, adding `lamports` to every slot
`< root`, and on the first slot `> root` add its stake into the pending
`insert_amount` and stop; returns the mutated list and the
`insert_amount`. -/
def update_rooted_stake (root lamports : ℕ) : List (ℕ × ℕ) → List (ℕ × ℕ) × ℕ
  | [] => ([], lamports)
  | (s, st) :: rest =>
    if s < root then
      ((s, st + lamports) :: (update_rooted_stake root lamports rest).1,
       (update_rooted_stake root lamports rest).2)
    else if root < s then ((s, st) :: rest, lamports + st)
    else
      ((s, st) :: (update_rooted_stake root lamports rest).1,
       (update_rooted_stake root lamports rest).2)

/-- Sorted insertion into the `rooted_stake` `BTreeMap`. -/
def insert_sorted (root amt : ℕ) : List (ℕ × ℕ) → List (ℕ × ℕ)
  | [] => [(root, amt)]
  | (s, st) :: rest =>
    if root < s then (root, amt) :: (s, st) :: rest
    else (s, st) :: insert_sorted root amt rest

/-- `rooted_stake.entry(root).and_modify(|s| s += lamports)
.or_insert(insert_amount)`. -/
def rooted_entry_upsert (root lamports amt : ℕ) (rs : List (ℕ × ℕ)) : List (ℕ × ℕ) :=
  if rs.any fun p => p.1 = root then
    rs.map fun p => if p.1 = root then (p.1, p.2 + lamports) else p
  else insert_sorted root amt rs

/-- The inner `while` of the votes loop (`commitment.rs:329-339`): bump
the `confirmation_count` stake of each remaining ancestor `≤ vote.slot`;
the `Bool` result signals the `return` that fires when the ancestor list
is exhausted. -/
def conf_while (lamports confirmation_count slot : ℕ) :
    List ℕ → CommitmentMap → CommitmentMap × List ℕ × Bool
  | [], m => (m, [], true)
  | a :: rest, m =>
    if a ≤ slot then
      let m2 := commit_upd m a
        (fun bc => bc.increase_confirmation_stake confirmation_count lamports)
      if rest.isEmpty then (m2, [], true)
      else conf_while lamports confirmation_count slot rest m2
    else (m, a :: rest, false)

/-- The votes loop of `aggregate_commitment_for_vote_account`
(`commitment.rs:328-340`), walking the vote stack and the remaining
ancestors in lock-step. -/
def votes_loop (lamports : ℕ) : List Lockout → List ℕ → CommitmentMap → CommitmentMap
  | [], _, m => m
  | v :: rest, rem, m =>
    match conf_while lamports v.confirmation_count v.slot rem m with
    | (m2, _, true) => m2
    | (m2, rem2, false) => votes_loop lamports rest rem2 m2

/-- `AggregateCommitmentService::aggregate_commitment_for_vote_account`
(asserts `!ancestors.is_empty()`; `ancestors` must be sorted
ascending). -/
def aggregate_commitment_for_vote_account (commitment : CommitmentMap)
    (rooted_stake : List (ℕ × ℕ)) (vote_state : VoteState) (ancestors : List ℕ)
    (lamports : ℕ) : CommitmentMap × List (ℕ × ℕ) :=
  match vote_state.root_slot with
  | some root =>
    (votes_loop lamports vote_state.votes
       (((rooted_prefix_scan lamports root ancestors commitment).2).getD ancestors)
       (rooted_prefix_scan lamports root ancestors commitment).1,
     rooted_entry_upsert root lamports (update_rooted_stake root lamports rooted_stake).2
       (update_rooted_stake root lamports rooted_stake).1)
  | none => (votes_loop lamports vote_state.votes ancestors commitment, rooted_stake)

/-- The `largest_confirmed_root` computation of
`AggregateCommitmentService::run` (`commitment.rs:229-236`): walk the
`rooted_stake` map from the highest slot down and take the first whose
stake fraction strictly exceeds the `2/3` super-majority (`0` when none
does). -/
def largest_confirmed_root (rooted_stake : List (ℕ × ℕ)) (total_staked : ℕ) : ℕ :=
  (((rooted_stake.reverse).find? fun p => decide (2 * total_staked < 3 * p.2)).getD (0, 0)).1

lemma find_desc_spec (pred : ℕ × ℕ → Bool) (l : List (ℕ × ℕ))
    (hl : l.Pairwise fun a b => b.1 < a.1) :
    (l.find? pred = none → ∀ p ∈ l, ¬ pred p = true) ∧
    (∀ q, l.find? pred = some q →
      q ∈ l ∧ pred q = true ∧ ∀ p ∈ l, pred p = true → p.1 ≤ q.1) := by
  induction l with
  | nil => exact ⟨fun _ p hp => absurd hp (List.not_mem_nil p), fun q hq => by simp at hq⟩
  | cons a rest ih =>
    obtain ⟨ha, hrest⟩ := List.pairwise_cons.mp hl
    obtain ⟨ih1, ih2⟩ := ih hrest
    by_cases hp : pred a = true
    · refine ⟨fun hnone => ?_, fun q hq => ?_⟩
      · rw [List.find?_cons_of_pos _ hp] at hnone
        exact absurd hnone (by simp)
      · rw [List.find?_cons_of_pos _ hp] at hq
        cases hq
        refine ⟨List.mem_cons_self _ _, hp, fun p hpm _ => ?_⟩
        rcases List.mem_cons.mp hpm with he | hm
        · exact le_of_eq (congrArg Prod.fst he)
        · exact le_of_lt (ha p hm)
    · refine ⟨fun hnone => ?_, fun q hq => ?_⟩
      · rw [List.find?_cons_of_neg _ hp] at hnone
        intro p hpm
        rcases List.mem_cons.mp hpm with he | hm
        · rw [he]; exact hp
        · exact ih1 hnone p hm
      · rw [List.find?_cons_of_neg _ hp] at hq
        obtain ⟨hqm, hqp, hqmax⟩ := ih2 q hq
        refine ⟨List.mem_cons_of_mem a hqm, hqp, fun p hpm hpp => ?_⟩
        rcases List.mem_cons.mp hpm with he | hm
        · rw [he] at hpp; exact absurd hpp hp
        · exact hqmax p hm hpp

/-- C7: with `rooted_stake` sorted ascending by slot (as a `BTreeMap`
yields it), `largest_confirmed_root` is the greatest slot whose stake
strictly exceeds the `2/3` super-majority of `total_staked`, and `0` when
no slot qualifies; in particular `{1 ↦ 70, 2 ↦ 50, 3 ↦ 30}` with total
100 gives 1. -/
theorem largest_confirmed_root_spec (rooted_stake : List (ℕ × ℕ)) (total_staked : ℕ)
    (hsorted : rooted_stake.Pairwise fun a b => a.1 < b.1) :
    ((∀ p ∈ rooted_stake, ¬ 2 * total_staked < 3 * p.2) →
      largest_confirmed_root rooted_stake total_staked = 0) ∧
    ((∃ p ∈ rooted_stake, 2 * total_staked < 3 * p.2) →
      ∃ q ∈ rooted_stake, largest_confirmed_root rooted_stake total_staked = q.1 ∧
        2 * total_staked < 3 * q.2 ∧
        ∀ p ∈ rooted_stake, 2 * total_staked < 3 * p.2 → p.1 ≤ q.1) ∧
    largest_confirmed_root [(1, 70), (2, 50), (3, 30)] 100 = 1 := by
  have hrev : rooted_stake.reverse.Pairwise fun a b => b.1 < a.1 :=
    (List.pairwise_reverse).mpr hsorted
  obtain ⟨hnone, hsome⟩ :=
    find_desc_spec (fun p => decide (2 * total_staked < 3 * p.2)) rooted_stake.reverse hrev
  refine ⟨?_, ?_, by decide⟩
  · intro hall
    unfold largest_confirmed_root
    rcases hfind : rooted_stake.reverse.find? (fun p => decide (2 * total_staked < 3 * p.2))
        with _ | q
    · rw [hfind]
      rfl
    · obtain ⟨hqm, hqp, _⟩ := hsome q hfind
      have hq2 := hall q (List.mem_reverse.mp hqm)
      simp only [decide_eq_true_eq] at hqp
      exact absurd hqp hq2
  · intro ⟨p, hpm, hpp⟩
    unfold largest_confirmed_root
    rcases hfind : rooted_stake.reverse.find? (fun p => decide (2 * total_staked < 3 * p.2))
        with _ | q
    · have h2 := hnone hfind p (List.mem_reverse.mpr hpm)
      simp only [decide_eq_true_eq] at h2
      exact absurd hpp h2
    · rw [hfind]
      obtain ⟨hqm, hqp, hqmax⟩ := hsome q hfind
      simp only [decide_eq_true_eq] at hqp
      refine ⟨q, List.mem_reverse.mp hqm, rfl, hqp, fun r hrm hrp => ?_⟩
      exact hqmax r (List.mem_reverse.mpr hrm) (by simpa using hrp)

/-- Closed instance of `largest_confirmed_root_spec` at spec scenario E
(`total_staked = 100`, `rooted_stake = {1 ↦ 70, 2 ↦ 50, 3 ↦ 30}`). -/
theorem largest_confirmed_root_spec_witness :
    ((∀ p ∈ [(1, 70), (2, 50), (3, 30)], ¬ 2 * 100 < 3 * p.2) →
      largest_confirmed_root [(1, 70), (2, 50), (3, 30)] 100 = 0) ∧
    ((∃ p ∈ [(1, 70), (2, 50), (3, 30)], 2 * 100 < 3 * p.2) →
      ∃ q ∈ [(1, 70), (2, 50), (3, 30)],
        largest_confirmed_root [(1, 70), (2, 50), (3, 30)] 100 = q.1 ∧
        2 * 100 < 3 * q.2 ∧
        ∀ p ∈ [(1, 70), (2, 50), (3, 30)], 2 * 100 < 3 * p.2 → p.1 ≤ q.1) ∧
    largest_confirmed_root [(1, 70), (2, 50), (3, 30)] 100 = 1 :=
  largest_confirmed_root_spec [(1, 70), (2, 50), (3, 30)] 100 (by decide)

lemma commit_upd_conf_rooted (m : CommitmentMap) (s cc lam x : ℕ)
    (hcc : 1 ≤ cc ∧ cc ≤ MAX_LOCKOUT_HISTORY) :
    rooted_of (commit_upd m s fun bc => bc.increase_confirmation_stake cc lam) x
      = rooted_of m x := by
  unfold rooted_of commit_upd
  by_cases h : x = s
  · subst h
    simp only [if_pos rfl, Option.getD_some]
    unfold BlockCommitment.get_rooted_stake BlockCommitment.increase_confirmation_stake
    have hne : ¬ (MAX_LOCKOUT_HISTORY = cc - 1) := by
      unfold MAX_LOCKOUT_HISTORY at hcc ⊢
      omega
    simp [hne]
  · simp [h]

lemma commit_upd_rooted_bump (m : CommitmentMap) (s lam x : ℕ) :
    rooted_of (commit_upd m s fun bc => bc.increase_rooted_stake lam) x
      = if x = s then rooted_of m x + lam else rooted_of m x := by
  unfold rooted_of commit_upd
  by_cases h : x = s
  · subst h
    simp only [if_pos rfl, Option.getD_some]
    unfold BlockCommitment.get_rooted_stake BlockCommitment.increase_rooted_stake
    simp
  · simp [h]

lemma conf_while_rooted (lam cc slot : ℕ) (hcc : 1 ≤ cc ∧ cc ≤ MAX_LOCKOUT_HISTORY)
    (rem : List ℕ) : ∀ (m : CommitmentMap) (x : ℕ),
    rooted_of (conf_while lam cc slot rem m).1 x = rooted_of m x := by
  induction rem with
  | nil => intro m x; rfl
  | cons a rest ih =>
    intro m x
    unfold conf_while
    by_cases ha : a ≤ slot
    · rw [if_pos ha]
      by_cases hrest : rest.isEmpty
      · simp only [hrest, if_true]
        exact commit_upd_conf_rooted m a cc lam x hcc
      · simp only [hrest, Bool.false_eq_true, if_false]
        rw [ih _ x]
        exact commit_upd_conf_rooted m a cc lam x hcc
    · rw [if_neg ha]

lemma votes_loop_rooted (lam : ℕ) (votes : List Lockout)
    (hcc : ∀ v ∈ votes, 1 ≤ v.confirmation_count ∧ v.confirmation_count ≤ MAX_LOCKOUT_HISTORY)
    (rem : List ℕ) (m : CommitmentMap) (x : ℕ) :
    rooted_of (votes_loop lam votes rem m) x = rooted_of m x := by
  induction votes generalizing rem m with
  | nil => rfl
  | cons v rest ih =>
    have hv := hcc v (List.mem_cons_self _ _)
    have hrest : ∀ w ∈ rest, 1 ≤ w.confirmation_count ∧
        w.confirmation_count ≤ MAX_LOCKOUT_HISTORY :=
      fun w hw => hcc w (List.mem_cons_of_mem v hw)
    unfold votes_loop
    rcases hcw : conf_while lam v.confirmation_count v.slot rem m with ⟨m2, rem2, done⟩
    have hpres : rooted_of m2 x = rooted_of m x := by
      have h := conf_while_rooted lam v.confirmation_count v.slot hv rem m x
      rw [hcw] at h
      exact h
    cases done
    · exact (ih hrest rem2 m2).trans hpres
    · exact hpres

lemma rooted_prefix_scan_not_mem (lam root : ℕ) (l : List ℕ) :
    ∀ (m : CommitmentMap) (x : ℕ), x ∉ l →
    rooted_of (rooted_prefix_scan lam root l m).1 x = rooted_of m x := by
  induction l with
  | nil => intro m x _; rfl
  | cons a rest ih =>
    intro m x hx
    have hx2 : x ∉ rest := fun h => hx (List.mem_cons_of_mem a h)
    have hxa : x ≠ a := fun he => hx (he ▸ List.mem_cons_self a rest)
    unfold rooted_prefix_scan
    by_cases ha : a ≤ root
    · rw [if_pos ha, ih _ x hx2, commit_upd_rooted_bump, if_neg hxa]
    · rw [if_neg ha]

lemma rooted_prefix_scan_spec (lam root : ℕ) (l : List ℕ) :
    ∀ (m : CommitmentMap), l.Pairwise (· < ·) →
    ∀ a ∈ l,
      (a ≤ root → rooted_of (rooted_prefix_scan lam root l m).1 a = rooted_of m a + lam) ∧
      (root < a → rooted_of (rooted_prefix_scan lam root l m).1 a = rooted_of m a) := by
  induction l with
  | nil => exact fun m _ a ha => absurd ha (List.not_mem_nil a)
  | cons b rest ih =>
    intro m hl a ha
    obtain ⟨hb, hrest⟩ := List.pairwise_cons.mp hl
    unfold rooted_prefix_scan
    by_cases hble : b ≤ root
    · rw [if_pos hble]
      rcases List.mem_cons.mp ha with he | hm
      · subst he
        have hnot : a ∉ rest := fun h => lt_irrefl a (hb a h)
        constructor
        · intro _
          rw [rooted_prefix_scan_not_mem lam root rest _ a hnot]
          rw [commit_upd_rooted_bump]
          simp
        · intro hgt
          exact absurd hble (by omega)
      · have hne : a ≠ b := fun he => lt_irrefl b (he ▸ hb a hm)
        have hbump : rooted_of (commit_upd m b fun bc => bc.increase_rooted_stake lam) a
            = rooted_of m a := by
          rw [commit_upd_rooted_bump, if_neg hne]
        obtain ⟨h1, h2⟩ := ih (commit_upd m b fun bc => bc.increase_rooted_stake lam)
          hrest a hm
        exact ⟨fun hle => by rw [h1 hle, hbump], fun hgt => by rw [h2 hgt, hbump]⟩
    · rw [if_neg hble]
      rcases List.mem_cons.mp ha with he | hm
      · subst he
        exact ⟨fun hle => absurd hle hble, fun _ => rfl⟩
      · have : root < a := lt_trans (by omega) (hb a hm)
        exact ⟨fun hle => absurd hle (by omega), fun _ => rfl⟩

/-- The vote state of spec scenario D: no live votes, `root_slot = 5`. -/
def vs_d : VoteState := { votes := [], root_slot := some 5 }

/-- Scenario D, first voter aggregated (stake 1, ancestors
`[3,4,5,7,9,11]`). -/
def agg_d1 : CommitmentMap × List (ℕ × ℕ) :=
  aggregate_commitment_for_vote_account (fun _ => none) [] vs_d [3, 4, 5, 7, 9, 11] 1

/-- Scenario D, second voter aggregated on top of the first. -/
def agg_d2 : CommitmentMap × List (ℕ × ℕ) :=
  aggregate_commitment_for_vote_account agg_d1.1 agg_d1.2 vs_d [3, 4, 5, 7, 9, 11] 1

/-- C8: for a vote account whose `VoteState` has a root, aggregation
adds the voter's stake to the rooted-stake entry (index 32) of every
ancestor `≤ root_slot` and leaves the rooted stake of every ancestor
`> root_slot` unchanged (`ancestors` sorted ascending as asserted; the
live votes carry the invariant `1 ≤ confirmation_count ≤ 32`).  In
particular two voters of stake 1 with root 5 over ancestors
`[3,4,5,7,9,11]` give rooted stake 2 at slots 3, 4, 5, untouched entries
at 7, 9, 11, and `rooted_stake = {5 ↦ 2}`. -/
theorem aggregate_commitment_rooted_spec (commitment : CommitmentMap)
    (rooted_stake : List (ℕ × ℕ)) (vote_state : VoteState) (ancestors : List ℕ)
    (lamports root : ℕ) (hroot : vote_state.root_slot = some root)
    (hsorted : ancestors.Pairwise (· < ·))
    (hcc : ∀ v ∈ vote_state.votes,
      1 ≤ v.confirmation_count ∧ v.confirmation_count ≤ MAX_LOCKOUT_HISTORY) :
    (∀ a ∈ ancestors,
      (a ≤ root →
        rooted_of (aggregate_commitment_for_vote_account commitment rooted_stake vote_state
            ancestors lamports).1 a = rooted_of commitment a + lamports) ∧
      (root < a →
        rooted_of (aggregate_commitment_for_vote_account commitment rooted_stake vote_state
            ancestors lamports).1 a = rooted_of commitment a)) ∧
    (rooted_of agg_d2.1 3 = 2 ∧ rooted_of agg_d2.1 4 = 2 ∧ rooted_of agg_d2.1 5 = 2 ∧
      agg_d2.1 7 = none ∧ agg_d2.1 9 = none ∧ agg_d2.1 11 = none ∧
      agg_d2.2 = [(5, 2)]) := by
  constructor
  · intro a ha
    unfold aggregate_commitment_for_vote_account
    rw [hroot]
    simp only
    have hvl : ∀ x, rooted_of (votes_loop lamports vote_state.votes
        (((rooted_prefix_scan lamports root ancestors commitment).2).getD ancestors)
        (rooted_prefix_scan lamports root ancestors commitment).1) x
        = rooted_of (rooted_prefix_scan lamports root ancestors commitment).1 x :=
      fun x => votes_loop_rooted lamports vote_state.votes hcc _ _ x
    obtain ⟨h1, h2⟩ := rooted_prefix_scan_spec lamports root ancestors commitment hsorted a ha
    exact ⟨fun hle => by rw [hvl, h1 hle], fun hgt => by rw [hvl, h2 hgt]⟩
  · exact ⟨by decide, by decide, by decide, rfl, rfl, rfl, by decide⟩

/-- Closed instance of `aggregate_commitment_rooted_spec` at the second
voter of scenario D. -/
theorem aggregate_commitment_rooted_spec_witness :
    (∀ a ∈ [3, 4, 5, 7, 9, 11],
      (a ≤ 5 →
        rooted_of (aggregate_commitment_for_vote_account agg_d1.1 agg_d1.2 vs_d
            [3, 4, 5, 7, 9, 11] 1).1 a = rooted_of agg_d1.1 a + 1) ∧
      (5 < a →
        rooted_of (aggregate_commitment_for_vote_account agg_d1.1 agg_d1.2 vs_d
            [3, 4, 5, 7, 9, 11] 1).1 a = rooted_of agg_d1.1 a)) ∧
    (rooted_of agg_d2.1 3 = 2 ∧ rooted_of agg_d2.1 4 = 2 ∧ rooted_of agg_d2.1 5 = 2 ∧
      agg_d2.1 7 = none ∧ agg_d2.1 9 = none ∧ agg_d2.1 11 = none ∧
      agg_d2.2 = [(5, 2)]) :=
  aggregate_commitment_rooted_spec agg_d1.1 agg_d1.2 vs_d [3, 4, 5, 7, 9, 11] 1 5
    rfl (by decide) (by decide)
